import Mathlib

/-!
Verification of the histogram library (`histo.hpp`).

All floating-point values (`PRECI = double`) are embedded as rationals `ℚ`;
the machine epsilon of `double`, `2^-52`, is the fixed constant `eps`.
Counts (`PRECI_INTEGER = unsigned long int`) are embedded as `ℕ`, with the
64-bit modulus made explicit where the source can wrap.  Out-of-bounds
`std::vector` accesses (undefined behavior in C++) and IEEE non-finite
results (not representable in `ℚ`) are modelled by the distinguished
result `HRes.ub`; a thrown `histo_error` is `HRes.err`; the unbounded
`while` loop of `BalanceBreaksWithRange` is given explicit fuel, with
`HRes.fuelOut` marking exhaustion.
-/

namespace HistoSpec

/-- Machine epsilon of IEEE double, `std::numeric_limits<double>::epsilon() = 2^-52`. -/
def eps : ℚ := 1 / 2 ^ 52

/-- `histo::isequalthan<TData, N>(v1, v2)`: `|v1 - v2| <= N * epsilon`. -/
def isequalthan (N : ℕ) (v1 v2 : ℚ) : Prop := |v1 - v2| ≤ (N : ℚ) * eps

instance (N : ℕ) (v1 v2 : ℚ) : Decidable (isequalthan N v1 v2) :=
  inferInstanceAs (Decidable (_ ≤ _))

/-- The distinct `histo_error` throw sites of the source. -/
inductive HError where
  | outOfRange
  | countsOverflow
  | countsUnderflow
  | indexOutOfBounds
  | nonEquidistant
  | nonMonotonic
deriving DecidableEq, Repr

/-- Outcome of running a piece of the C++ code: a normal return, a thrown
`histo_error`, undefined / non-representable behavior (out-of-bounds vector
access, IEEE non-finite arithmetic), or fuel exhaustion of a modelled loop. -/
inductive HRes (α : Type) where
  | ok : α → HRes α
  | err : HError → HRes α
  | ub : HRes α
  | fuelOut : HRes α
deriving DecidableEq, Repr

/-- `histo::Histo<PRECI, PRECI_INTEGER>` with its data members; the default
field values are those of the default constructor (`Histo() = default`). -/
structure Histo where
  range : ℚ × ℚ := (0, 0)
  breaks : List ℚ := []
  bins : ℕ := 0
  counts : List ℕ := []
  name : String := ""
deriving DecidableEq, Repr

/-- `histo::Histo<PRECI, PRECI>`, the result type of `NormalizeByArea`:
identical to `Histo` except that counts are of the precision type. -/
structure HistoF where
  range : ℚ × ℚ := (0, 0)
  breaks : List ℚ := []
  bins : ℕ := 0
  counts : List ℚ := []
  name : String := ""
deriving DecidableEq, Repr

/-- The documented length consistency: `breaks.size() == bins + 1` and
`counts.size() == bins`. -/
def lengthInv (h : Histo) : Prop :=
  h.breaks.length = h.bins + 1 ∧ h.counts.length = h.bins

/-- `lengthInv` for the fractional-count histogram. -/
def lengthInvF (h : HistoF) : Prop :=
  h.breaks.length = h.bins + 1 ∧ h.counts.length = h.bins

/-- `2^64`, the modulus of `unsigned long int`. -/
def ulongMod : ℕ := 2 ^ 64

/-- `std::numeric_limits<unsigned long int>::max()`. -/
def maxULong : ℕ := 2 ^ 64 - 1

/-- The `while (hi - lo >= 2)` binary-search loop of `IndexFromValue`,
with an explicit bound on the number of iterations (structural recursion on
`fuel`; each iteration halves `hi - lo`, so `fuel = hi - lo` at the entry
point `ifvLoop` below is always sufficient and the `fuel = 0` clause is
unreachable from it): `newb = (hi + lo) / 2`; move `lo` up when
`value >= breaks[newb]`, else move `hi` down; return `lo` on exit. -/
def ifvLoopF : ℕ → List ℚ → ℚ → ℕ → ℕ → HRes ℕ
  | 0, _, _, lo, _ => .ok lo
  | fuel + 1, breaks, value, lo, hi =>
    if 2 ≤ hi - lo then
      match breaks[(hi + lo) / 2]? with
      | none => .ub
      | some b =>
        if value ≥ b then ifvLoopF fuel breaks value ((hi + lo) / 2) hi
        else ifvLoopF fuel breaks value lo ((hi + lo) / 2)
    else .ok lo

/-- The binary-search loop of `IndexFromValue`, entered at `(lo, hi)`. -/
def ifvLoop (breaks : List ℚ) (value : ℚ) (lo hi : ℕ) : HRes ℕ :=
  ifvLoopF (hi - lo) breaks value lo hi

/-- `Histo::IndexFromValue`: accept when `value >= breaks[0]` and
(`value < breaks[bins]` or `isequalthan(value, breaks[bins])`), then binary
search; otherwise throw.  `breaks[0]` is read first; `breaks[bins]` is only
read when the first conjunct holds (C++ short-circuit `&&`). -/
def indexFromValue (h : Histo) (value : ℚ) : HRes ℕ :=
  match h.breaks[0]? with
  | none => .ub
  | some blo =>
    if value ≥ blo then
      match h.breaks[h.bins]? with
      | none => .ub
      | some bhi =>
        if value < bhi ∨ isequalthan 1 value bhi then
          ifvLoop h.breaks value 0 h.bins
        else .err .outOfRange
    else .err .outOfRange

/-- `Histo::ResetCounts`: resize counts to `bins` and zero every entry. -/
def resetCounts (h : Histo) : Histo :=
  { h with counts := List.replicate h.bins 0 }

/-- `Histo::FillCounts`: for each value, `counts[IndexFromValue(v)]++`
(unsigned increment, wrapping at `2^64`).  The returned `Histo` is the
state of the object when the function exits — on a thrown error the
already-performed increments remain. -/
def fillCounts : Histo → List ℚ → Histo × HRes Unit
  | h, [] => (h, .ok ())
  | h, v :: rest =>
    match indexFromValue h v with
    | .ok i =>
      match h.counts[i]? with
      | some c =>
        fillCounts { h with counts := h.counts.set i ((c + 1) % ulongMod) } rest
      | none => (h, .ub)
    | .err e => (h, .err e)
    | .ub => (h, .ub)
    | .fuelOut => (h, .fuelOut)

/-- `Histo::Increase`: read `counts[index]` (no bounds check — out of bounds
is UB), throw when at `max()`, else increment. -/
def increase (h : Histo) (index : ℕ) : HRes Histo :=
  match h.counts[index]? with
  | none => .ub
  | some c =>
    if c = maxULong then .err .countsOverflow
    else .ok { h with counts := h.counts.set index ((c + 1) % ulongMod) }

/-- `Histo::Decrease`: read `counts[index]` (no bounds check — out of bounds
is UB), throw when `<= 0`, else decrement. -/
def decrease (h : Histo) (index : ℕ) : HRes Histo :=
  match h.counts[index]? with
  | none => .ub
  | some c =>
    if c = 0 then .err .countsUnderflow
    else .ok { h with counts := h.counts.set index (c - 1) }

/-- `Histo::SetCount`: throw when `index > bins`; otherwise write
`counts[index] = v` (an out-of-bounds write — possible since `counts` has
`bins` entries and `index == bins` passes the check — is UB). -/
def setCount (h : Histo) (index : ℕ) (v : ℕ) : HRes Histo :=
  if h.bins < index then .err .indexOutOfBounds
  else
    match h.counts[index]? with
    | some _ => .ok { h with counts := h.counts.set index v }
    | none => .ub

/-- `Histo::CheckIfMonotonicallyIncreasing`'s scan: starting from
`prev_value`, every later element must be strictly greater than its
predecessor (`*it <= prev_value` returns false). -/
def strictlyIncreasingFrom : ℚ → List ℚ → Bool
  | _, [] => true
  | prev, x :: xs => decide (prev < x) && strictlyIncreasingFrom x xs

/-- `Histo::CheckIfMonotonicallyIncreasing`: reads `input_breaks[0]` first
(undefined behavior on an empty vector, hence `none`), then scans. -/
def checkIfMonotonicallyIncreasing : List ℚ → Option Bool
  | [] => none
  | b :: rest => some (strictlyIncreasingFrom b rest)

/-- The scan of `Histo::CheckBreaksAreEquidistant`: each consecutive gap
`*it - *(it-1)` must equal `diff` within `isequalthan<PRECI, 100>`. -/
def pairwiseWithin (diff : ℚ) : ℚ → List ℚ → Bool
  | _, [] => true
  | prev, x :: xs => decide (isequalthan 100 (x - prev) diff) && pairwiseWithin diff x xs

/-- `Histo::CheckBreaksAreEquidistant`: `diff = input_breaks[1] -
input_breaks[0]` (undefined behavior when fewer than two elements, hence
`none`), then the scan starting at `begin + 1`. -/
def checkBreaksAreEquidistant : List ℚ → Option Bool
  | b0 :: b1 :: rest => some (pairwiseWithin (b1 - b0) b0 (b1 :: rest))
  | _ => none

/-- `Histo::ShiftBreaks`: `v = v + d` for every break. -/
def shiftBreaks (bs : List ℚ) (d : ℚ) : List ℚ := bs.map (· + d)

/-- The loop of `Histo::ShrinkOrExpandBreaks`, carrying the running index
`i`: `v = v + i * d`. -/
def shrinkOrExpandGo (d : ℚ) : ℕ → List ℚ → List ℚ
  | _, [] => []
  | i, v :: vs => (v + (i : ℚ) * d) :: shrinkOrExpandGo d (i + 1) vs

/-- `Histo::ShrinkOrExpandBreaks`: `v = v + i * d`, `i` counting from 0. -/
def shrinkOrExpandBreaks (bs : List ℚ) (d : ℚ) : List ℚ := shrinkOrExpandGo d 0 bs

/-- The `while (diff_upper < 0)` loop of `BalanceBreaksWithRange`, with
explicit fuel: `nbins++; push_back(range.first + nbins * width);
diff_upper = input_breaks[nbins] - range.second`.  Returns the final
`(nbins, breaks, diff_upper)`. -/
def appendLoop (r1 r2 width : ℚ) : ℕ → ℕ → List ℚ → ℚ → HRes (ℕ × List ℚ × ℚ)
  | 0, nbins, bs, diff =>
    if diff < 0 then .fuelOut else .ok (nbins, bs, diff)
  | fuel + 1, nbins, bs, diff =>
    if diff < 0 then
      match (bs ++ [r1 + ((nbins + 1 : ℕ) : ℚ) * width])[nbins + 1]? with
      | none => .ub
      | some e =>
        appendLoop r1 r2 width fuel (nbins + 1)
          (bs ++ [r1 + ((nbins + 1 : ℕ) : ℚ) * width]) (e - r2)
    else .ok (nbins, bs, diff)

/-- Final stage of `BalanceBreaksWithRange` (source lines after the while
loop): return if `diff_upper` is ~zero, else shrink each spacing by
`width_to_shrink = diff_upper / nbins`. -/
def balanceAfterLoop (nbins : ℕ) (bs : List ℚ) (diff : ℚ) : HRes (List ℚ × Bool) :=
  if isequalthan 1 diff 0 then .ok (bs, true)
  else .ok (shrinkOrExpandBreaks bs (-(diff / (nbins : ℚ))), true)

/-- `BalanceBreaksWithRange` from the `CheckAndUpdateDiff` preceding the
while loop: recompute `diff_upper = input_breaks[nbins] - range.second`,
return if ~zero, else run the append loop and the final stage. -/
def balanceLoopStage (fuel : ℕ) (r1 r2 width : ℚ) (nbins : ℕ)
    (bs : List ℚ) : HRes (List ℚ × Bool) :=
  match bs[nbins]? with
  | none => .ub
  | some bn =>
    if isequalthan 1 (bn - r2) 0 then .ok (bs, true)
    else
      match appendLoop r1 r2 width fuel nbins bs (bn - r2) with
      | .ok (nbins3, bs3, diff3) => balanceAfterLoop nbins3 bs3 diff3
      | .err e => .err e
      | .ub => .ub
      | .fuelOut => .fuelOut

/-- The "remove the last break" stage of `BalanceBreaksWithRange`:
`diff_upper_before = input_breaks[nbins-1] - range.second`; when
`diff_upper_before < 0`, `diff_upper > 0` and `|diff_upper_before| <
0.8 * |diff_upper|`, pop the last break and expand the remaining spacings
by `-diff_upper_before/nbins` (decremented `nbins`; when that is zero the
C++ divides by zero, producing non-finite values — modelled as `ub`). -/
def balancePopStage (fuel : ℕ) (r1 r2 width : ℚ) (nbins : ℕ)
    (bs : List ℚ) (diffUpper : ℚ) : HRes (List ℚ × Bool) :=
  match bs[nbins - 1]? with
  | none => .ub
  | some bnm1 =>
    if bnm1 - r2 < 0 ∧ 0 < diffUpper ∧ |bnm1 - r2| < (4 / 5 : ℚ) * |diffUpper| then
      if nbins - 1 = 0 then .ub
      else
        balanceLoopStage fuel r1 r2 width (nbins - 1)
          (shrinkOrExpandBreaks bs.dropLast (-((bnm1 - r2) / ((nbins - 1 : ℕ) : ℚ))))
    else balanceLoopStage fuel r1 r2 width nbins bs

/-- `BalanceBreaksWithRange` from the `CheckAndUpdateDiff` right after the
(possible) shift: `diff_upper = input_breaks[nbins] - range.second`,
return `true` if ~zero, else go on to the pop stage. -/
def balanceShiftStage (fuel : ℕ) (r1 r2 width : ℚ) (nbins : ℕ)
    (bs : List ℚ) : HRes (List ℚ × Bool) :=
  match bs[nbins]? with
  | none => .ub
  | some bn =>
    if isequalthan 1 (bn - r2) 0 then .ok (bs, true)
    else balancePopStage fuel r1 r2 width nbins bs (bn - r2)

/-- `Histo::BalanceBreaksWithRange(input_breaks, input_range)`: check
equidistance (throwing when it fails), compute `nbins = size - 1`,
`width = breaks[1] - breaks[0]`, `diff_low = breaks[0] - range.first`,
`diff_upper = breaks[nbins] - range.second`; return `false` when both
diffs are ~zero; otherwise shift by `-diff_low` when needed and run the
remaining stages.  The boolean result is the C++ return value ("changed"). -/
def balanceBreaksWithRange (fuel : ℕ) (bs : List ℚ) (rg : ℚ × ℚ) :
    HRes (List ℚ × Bool) :=
  match checkBreaksAreEquidistant bs with
  | none => .ub
  | some false => .err .nonEquidistant
  | some true =>
    match bs[0]?, bs[1]?, bs[bs.length - 1]? with
    | some b0, some b1, some bn =>
      if isequalthan 1 (b0 - rg.1) 0 ∧ isequalthan 1 (bn - rg.2) 0 then
        .ok (bs, false)
      else
        balanceShiftStage fuel rg.1 rg.2 (b1 - b0) (bs.length - 1)
          (if isequalthan 1 (b0 - rg.1) 0 then bs else shiftBreaks bs (-(b0 - rg.1)))
    | _, _, _ => .ub

/-- `BalanceBreaksWithRange` terminates on the given input: some fuel is
enough for its append loop. -/
def balanceTerminates (bs : List ℚ) (rg : ℚ × ℚ) : Prop :=
  ∃ fuel, balanceBreaksWithRange fuel bs rg ≠ .fuelOut

/-- Arithmetic progression of `n + 1` edges `a, a + w, ..., a + n * w`:
the shape `breaks[i] = range.first + i * width` that `ScottMethod`
generates before balancing (see `apList_get?`). -/
def apList (a w : ℚ) : ℕ → List ℚ
  | 0 => [a]
  | n + 1 => a :: apList (a + w) w n

/-- `Histo::ScottMethod`, with the bin width as a parameter: the source
computes `width = 3.5 * sqrt(variance) / cbrt(size)`, an irrational-valued
floating computation, so the embedding quantifies over the width; the
break generation, balancing and length bookkeeping below do not depend on
how the width was obtained.  `bins = ceil((range.upper - range.low) /
width)` (a negative value converted to `unsigned long` is UB), breaks are
`range.first + i * width`, then `BalanceBreaksWithRange` runs and `bins`
is recomputed as `breaks.size() - 1`. -/
def scottMethodWith (width : ℚ) (fuel : ℕ) (rg : ℚ × ℚ) : HRes (List ℚ × ℕ) :=
  if width = 0 then .ub
  else if ⌈(rg.2 - rg.1) / width⌉ < 0 then .ub
  else
    match balanceBreaksWithRange fuel (apList rg.1 width (⌈(rg.2 - rg.1) / width⌉).toNat) rg with
    | .ok (bs, _) => .ok (bs, bs.length - 1)
    | .err e => .err e
    | .ub => .ub
    | .fuelOut => .fuelOut

/-- Shared tail of all three constructors: install breaks, bins and range,
`ResetCounts()`, then `FillCounts(data)`; an exception escaping `FillCounts`
destroys the object (the constructor never returns). -/
def histoInit (rg : ℚ × ℚ) (bs : List ℚ) (bins : ℕ) (data : List ℚ) : HRes Histo :=
  match fillCounts { range := rg, breaks := bs, bins := bins,
                     counts := List.replicate bins 0, name := "" } data with
  | (h1, .ok _) => .ok h1
  | (_, .err e) => .err e
  | (_, .ub) => .ub
  | (_, .fuelOut) => .fuelOut

/-- `Histo(data, input_range, method)`: breaks from `ScottMethod` (width
abstracted, see `scottMethodWith`), `bins = breaks.size() - 1`, reset and
fill. -/
def histoFromDataRange (width : ℚ) (fuel : ℕ) (data : List ℚ) (rg : ℚ × ℚ) :
    HRes Histo :=
  match scottMethodWith width fuel rg with
  | .ok (bs, bins) => histoInit rg bs bins data
  | .err e => .err e
  | .ub => .ub
  | .fuelOut => .fuelOut

/-- `Histo(data, method)`: range from `std::minmax_element` (undefined on
an empty vector), then as `histoFromDataRange`. -/
def histoFromData (width : ℚ) (fuel : ℕ) (data : List ℚ) : HRes Histo :=
  match data with
  | [] => .ub
  | d :: ds => histoFromDataRange width fuel (d :: ds) (ds.foldl min d, ds.foldl max d)

/-- `Histo(data, input_breaks)`: validate monotonicity (throwing on
failure), `range = (breaks[0], breaks[size-1])`, `bins = size - 1`, reset
and fill. -/
def histoFromBreaks (data : List ℚ) (input_breaks : List ℚ) : HRes Histo :=
  match checkIfMonotonicallyIncreasing input_breaks with
  | none => .ub
  | some false => .err .nonMonotonic
  | some true =>
    histoInit (input_breaks.getD 0 0, input_breaks.getD (input_breaks.length - 1) 0)
      input_breaks (input_breaks.length - 1) data

/-- `Histo::ComputeBinCenters`: `centers[i] = breaks[i] +
(breaks[i+1] - breaks[i]) / 2` for `i` below `counts.size()` (reading
`breaks[i+1]` out of bounds is UB). -/
def computeBinCenters (h : Histo) : HRes (List ℚ) :=
  if h.counts.length + 1 ≤ h.breaks.length then
    .ok ((List.range h.counts.length).map fun i =>
      h.breaks.getD i 0 + (h.breaks.getD (i + 1) 0 - h.breaks.getD i 0) / 2)
  else .ub

/-- `std::inner_product(cbegin(centers), cend(centers), cbegin(counts), 0.0)`:
the sum of `centers[i] * counts[i]` over the centers. -/
def innerProduct (centers : List ℚ) (counts : List ℕ) : ℚ :=
  (List.zipWith (fun (c : ℚ) (k : ℕ) => c * (k : ℚ)) centers counts).sum

/-- `histo::Mean`: `std::inner_product` of the bin centers with the counts
(initial value 0.0), divided by the bin count. -/
def mean (h : Histo) : HRes ℚ :=
  match computeBinCenters h with
  | .ok centers => .ok (innerProduct centers h.counts / (h.bins : ℚ))
  | .err e => .err e
  | .ub => .ub
  | .fuelOut => .fuelOut

/-- The area accumulation of `histo::NormalizeByArea`:
`sum += counts[i] * abs(breaks[i+1] - breaks[i])` for `i != bins`. -/
def areaSum (h : Histo) : ℚ :=
  (List.range h.bins).foldl
    (fun acc i =>
      acc + (h.counts.getD i 0 : ℚ) * |h.breaks.getD (i + 1) 0 - h.breaks.getD i 0|) 0

/-- The transform lambda of `histo::NormalizeByArea`:
`[&sum](const double &d) { return d / sum; }` applied to a count. -/
def normCount (h : Histo) (c : ℕ) : ℚ := (c : ℚ) / areaSum h

/-- `histo::NormalizeByArea`: a default-constructed `Histo<PRECI, PRECI>`
receives the input's `bins` and `breaks`, and counts `d / sum` via
`std::transform`; `range` and `name` keep their default values.  The index
loop and the transform write are out of bounds unless `counts.size() ==
bins` and `bins + 1 <= breaks.size()`. -/
def normalizeByArea (h : Histo) : HRes HistoF :=
  if h.counts.length = h.bins ∧ h.bins + 1 ≤ h.breaks.length then
    .ok { range := (0, 0), breaks := h.breaks, bins := h.bins,
          counts := h.counts.map (normCount h), name := "" }
  else .ub

/-- Modelled from the spec's words (section 4.2, NormalizeByArea), for
comparison with the source's `normalizeByArea`: "counts become
`count[i] * binWidth[i] / Σ(count[j]*binWidth[j])`". -/
def specNormalizeCounts (h : Histo) : List ℚ :=
  (List.range h.bins).map fun i =>
    (h.counts.getD i 0 : ℚ) * (h.breaks.getD (i + 1) 0 - h.breaks.getD i 0) / areaSum h

/-! Concrete instances used by witnesses and counterexamples. -/

/-- A histogram with breaks `[0, 1]`, one bin, counts `[0]`. -/
def exH01 : Histo :=
  { range := (0, 1), breaks := [0, 1], bins := 1, counts := [0], name := "" }

/-- A histogram with breaks `[0, 2]`, one bin of width 2, counts `[1]`. -/
def exH02 : Histo :=
  { range := (0, 2), breaks := [0, 2], bins := 1, counts := [1], name := "" }

/-- A histogram with breaks `[1, 2]`, one bin, counts `[1]`. -/
def exH12 : Histo :=
  { range := (1, 2), breaks := [1, 2], bins := 1, counts := [1], name := "" }

/-- A histogram with breaks `[0, 1, 2]`, two bins, counts `[1, 3]`. -/
def exH012 : Histo :=
  { range := (0, 2), breaks := [0, 1, 2], bins := 2, counts := [1, 3], name := "" }

/-- A breaks sequence that is equidistant within the `100 * eps` tolerance
but not exactly: gaps `1, 1+100*eps, 1+100*eps, 1+100*eps`. -/
def cexBreaks : List ℚ :=
  [0, 1, 2 + 100 * eps, 3 + 200 * eps, 4 + 300 * eps]

/-- What `BalanceBreaksWithRange` makes of `cexBreaks` against range
`(0, 10)`: appended edges `5 ... 10` continue from `range.first` with the
original width 1, so the gap `5 - (4 + 300*eps)` deviates from the first
gap by `300 * eps`, beyond the `100 * eps` tolerance. -/
def cexBreaks2 : List ℚ :=
  [0, 1, 2 + 100 * eps, 3 + 200 * eps, 4 + 300 * eps, 5, 6, 7, 8, 9, 10]

/-! ## Helper lemmas -/

theorem indexFromValue_congr (h h' : Histo) (v : ℚ) (hb : h'.breaks = h.breaks)
    (hbi : h'.bins = h.bins) : indexFromValue h' v = indexFromValue h v := by
  unfold indexFromValue ifvLoop
  rw [hb, hbi]

/-! ## C5: bounds behavior of the single-count mutators -/

/-- C5 (counterexample): at index `1 = bins` of a one-bin histogram, none of
`Increase`, `Decrease`, `SetCount` raises the claimed `CountBoundsViolation`
error: `Increase`/`Decrease` read `counts[1]` out of bounds with no check,
and `SetCount`'s check `index > bins` lets `index == bins` through to an
out-of-bounds write. -/
theorem mutators_no_bounds_error :
    increase exH01 1 = .ub ∧ decrease exH01 1 = .ub ∧ setCount exH01 1 5 = .ub := by
  decide

/-- C5 (amended): for `index ≥ bins` on a consistent histogram, `Increase`
and `Decrease` perform no index check and hit undefined behavior; `SetCount`
raises its error exactly when `index > bins`, while `index == bins` passes
the check and writes out of bounds. -/
theorem mutators_bounds_behavior (h : Histo) (i v : ℕ)
    (hc : h.counts.length = h.bins) (hi : h.bins ≤ i) :
    increase h i = .ub ∧ decrease h i = .ub ∧
    (h.bins < i → setCount h i v = .err .indexOutOfBounds) ∧
    (i = h.bins → setCount h i v = .ub) := by
  have hnone : h.counts[i]? = none := by
    rw [List.getElem?_eq_none_iff]
    omega
  refine ⟨?_, ?_, fun hlt => ?_, fun hEq => ?_⟩
  · simp [increase, hnone]
  · simp [decrease, hnone]
  · simp [setCount, hlt]
  · subst hEq
    simp [setCount, hnone]

/-- C5 (witness): the amended statement applied to `exH01` at index 2. -/
theorem mutators_bounds_behavior_witness :
    increase exH01 2 = .ub ∧ decrease exH01 2 = .ub ∧
    (exH01.bins < 2 → setCount exH01 2 0 = .err .indexOutOfBounds) ∧
    (2 = exH01.bins → setCount exH01 2 0 = .ub) :=
  mutators_bounds_behavior exH01 2 0 (by decide) (by decide)

/-! ## C10: NormalizeByArea leaves range and name at their defaults -/

/-- C10: the histogram built by `NormalizeByArea` carries the input's bins,
breaks and rescaled counts, but default `range = (0,0)` and empty `name`
(so whenever the input's first break is nonzero, the output's range.low is
not the output's first break); the input, taken by const reference, is
untouched — the embedding is a pure function of it. -/
theorem normalizeByArea_defaults (h : Histo) (hc : h.counts.length = h.bins)
    (hb : h.bins + 1 ≤ h.breaks.length) :
    ∃ nh, normalizeByArea h = .ok nh ∧ nh.range = (0, 0) ∧ nh.name = "" ∧
      nh.breaks = h.breaks ∧ nh.bins = h.bins ∧
      nh.counts = h.counts.map (normCount h) ∧
      (h.breaks.getD 0 0 ≠ 0 → nh.range.1 ≠ h.breaks.getD 0 0) := by
  refine ⟨{ range := (0, 0), breaks := h.breaks, bins := h.bins,
            counts := h.counts.map (normCount h), name := "" },
          ?_, rfl, rfl, rfl, rfl, rfl, fun hne h0 => hne h0.symm⟩
  rw [normalizeByArea, if_pos ⟨hc, hb⟩]

/-- C10 (witness): `normalizeByArea` on `exH12` (first break `1 ≠ 0`). -/
theorem normalizeByArea_defaults_witness :
    ∃ nh, normalizeByArea exH12 = .ok nh ∧ nh.range = (0, 0) ∧ nh.name = "" ∧
      nh.breaks = exH12.breaks ∧ nh.bins = exH12.bins ∧
      nh.counts = exH12.counts.map (normCount exH12) ∧
      (exH12.breaks.getD 0 0 ≠ 0 → nh.range.1 ≠ exH12.breaks.getD 0 0) :=
  normalizeByArea_defaults exH12 (by decide) (by decide)

/-! ## C2: FillCounts is not atomic on error -/

/-- C2 (counterexample): filling `[1/2, 7]` into `exH01` (breaks `[0,1]`)
raises the out-of-range error for `7`, yet the counts have already been
updated from `[0]` to `[1]` by the in-range value `1/2` — the claimed
"counts left exactly as before the call" is false. -/
theorem fillCounts_partial_commit :
    (fillCounts exH01 [1/2, 7]).2 = .err .outOfRange ∧
    (fillCounts exH01 [1/2, 7]).1.counts = [1] ∧ exH01.counts = [0] := by
  norm_num [fillCounts, indexFromValue, exH01, ifvLoop, ifvLoopF, isequalthan,
    eps, ulongMod]

/-- C2 (amended): a fill aborts at the first out-of-range value: the
increments of the values before it persist (the state is exactly the state
after filling the prefix), and neither the failing value nor any later one
is counted. -/
theorem fillCounts_aborts_at_first_bad (h : Histo) (pre : List ℚ) (bad : ℚ)
    (rest : List ℚ) (e : HError)
    (hok : (fillCounts h pre).2 = .ok ()) (hbad : indexFromValue h bad = .err e) :
    fillCounts h (pre ++ bad :: rest) = ((fillCounts h pre).1, .err e) := by
  induction pre generalizing h with
  | nil => simp only [List.nil_append, fillCounts, hbad]
  | cons v pre ih =>
    simp only [List.cons_append, fillCounts] at hok ⊢
    cases hiv : indexFromValue h v with
    | ok i =>
      simp only [hiv] at hok ⊢
      cases hg : h.counts[i]? with
      | some c =>
        simp only [hg] at hok ⊢
        exact ih _ hok ((indexFromValue_congr h _ bad rfl rfl).trans hbad)
      | none => simp [hg] at hok
    | err e' => simp [hiv] at hok
    | ub => simp [hiv] at hok
    | fuelOut => simp [hiv] at hok

/-- C2 (witness): the amended statement on `exH01` with prefix `[1/2]`,
failing value `7` and pending suffix `[1/4]`. -/
theorem fillCounts_aborts_at_first_bad_witness :
    fillCounts exH01 ([1/2] ++ 7 :: [1/4]) = ((fillCounts exH01 [1/2]).1, .err .outOfRange) :=
  fillCounts_aborts_at_first_bad exH01 [1/2] 7 [1/4] .outOfRange
    (by norm_num [fillCounts, indexFromValue, exH01, ifvLoop, ifvLoopF,
      isequalthan, eps, ulongMod])
    (by norm_num [indexFromValue, exH01, isequalthan, eps, abs_le])

/-! ## Binary-search loop lemmas -/

theorem ifvLoopF_spec (breaks : List ℚ) (v : ℚ) :
    ∀ (fuel lo hi : ℕ), hi - lo ≤ fuel → lo < hi → hi < breaks.length →
      breaks.getD lo 0 ≤ v → (v < breaks.getD hi 0 ∨ hi = breaks.length - 1) →
      ∃ i, ifvLoopF fuel breaks v lo hi = .ok i ∧ lo ≤ i ∧ i < hi ∧
        breaks.getD i 0 ≤ v ∧ (v < breaks.getD (i + 1) 0 ∨ i = breaks.length - 2) := by
  intro fuel
  induction fuel with
  | zero =>
    intro lo hi hf hlt _ _ _
    exact absurd hf (by omega)
  | succ f ih =>
    intro lo hi hf hlt hhi hlo hup
    by_cases h2 : 2 ≤ hi - lo
    · have hmlo : lo + 1 ≤ (hi + lo) / 2 := by omega
      have hmhi : (hi + lo) / 2 + 1 ≤ hi := by omega
      have hmlen : (hi + lo) / 2 < breaks.length := by omega
      simp only [ifvLoopF, if_pos h2, List.getElem?_eq_getElem hmlen]
      rw [← List.getD_eq_getElem breaks 0 hmlen]
      by_cases hge : v ≥ breaks.getD ((hi + lo) / 2) 0
      · rw [if_pos hge]
        obtain ⟨i, hres, hge', hlt', hinv⟩ :=
          ih ((hi + lo) / 2) hi (by omega) (by omega) hhi hge hup
        exact ⟨i, hres, by omega, hlt', hinv⟩
      · rw [if_neg hge]
        obtain ⟨i, hres, hge', hlt', hinv⟩ :=
          ih lo ((hi + lo) / 2) (by omega) (by omega) (by omega) hlo
            (Or.inl (lt_of_not_ge hge))
        exact ⟨i, hres, hge', by omega, hinv⟩
    · simp only [ifvLoopF, if_neg h2]
      have hsucc : hi = lo + 1 := by omega
      refine ⟨lo, rfl, le_refl _, hlt, hlo, ?_⟩
      rcases hup with hup | hup
      · exact Or.inl (by rw [← hsucc]; exact hup)
      · exact Or.inr (by omega)

theorem ifvLoopF_ok (breaks : List ℚ) (v : ℚ) :
    ∀ (fuel lo hi : ℕ), hi < breaks.length →
      ∃ i, ifvLoopF fuel breaks v lo hi = .ok i := by
  intro fuel
  induction fuel with
  | zero => exact fun lo hi _ => ⟨lo, rfl⟩
  | succ f ih =>
    intro lo hi hhi
    by_cases h2 : 2 ≤ hi - lo
    · have hmlen : (hi + lo) / 2 < breaks.length := by omega
      simp only [ifvLoopF, if_pos h2, List.getElem?_eq_getElem hmlen]
      by_cases hge : v ≥ breaks[(hi + lo) / 2]
      · rw [if_pos hge]
        exact ih _ hi hhi
      · rw [if_neg hge]
        exact ih lo _ (by omega)
    · exact ⟨lo, by simp only [ifvLoopF, if_neg h2]⟩

/-! ## C3: IndexFromValue locates the containing bin -/

/-- C3: on a histogram whose strictly increasing breaks have length
`bins + 1 ≥ 2`, any value between the first and last break is assigned an
index `i < bins` with `breaks[i] ≤ v`, and either `v < breaks[i+1]` or `i`
is the last bin `bins - 1` (the last bin alone is closed above). -/
theorem indexFromValue_locates (h : Histo) (v : ℚ)
    (hlen : h.breaks.length = h.bins + 1) (hb : 1 ≤ h.bins)
    (_hmono : List.Chain' (· < ·) h.breaks)
    (hlo : h.breaks.getD 0 0 ≤ v) (hhi : v ≤ h.breaks.getD h.bins 0) :
    ∃ i, indexFromValue h v = .ok i ∧ i < h.bins ∧
      h.breaks.getD i 0 ≤ v ∧ (v < h.breaks.getD (i + 1) 0 ∨ i = h.bins - 1) := by
  have h0len : 0 < h.breaks.length := by omega
  have hbl : h.bins < h.breaks.length := by omega
  simp only [indexFromValue, List.getElem?_eq_getElem h0len,
    List.getElem?_eq_getElem hbl]
  rw [← List.getD_eq_getElem h.breaks 0 h0len, ← List.getD_eq_getElem h.breaks 0 hbl]
  rw [if_pos hlo]
  have haccept : v < h.breaks.getD h.bins 0 ∨ isequalthan 1 v (h.breaks.getD h.bins 0) := by
    rcases lt_or_eq_of_le hhi with hlt | hEq
    · exact Or.inl hlt
    · refine Or.inr ?_
      rw [isequalthan, hEq]
      simp [eps]
  rw [if_pos haccept]
  unfold ifvLoop
  obtain ⟨i, hres, _, hlt, hle, hinv⟩ :=
    ifvLoopF_spec h.breaks v (h.bins - 0) 0 h.bins (by omega) (by omega) (by omega)
      hlo (Or.inr (by omega))
  refine ⟨i, hres, by omega, hle, ?_⟩
  rcases hinv with hinv | hinv
  · exact Or.inl hinv
  · exact Or.inr (by omega)

/-- C3 (witness): value 1 in breaks `[0, 1, 2]` is located (it lands in
bin 1, with `breaks[1] = 1 ≤ 1 < 2 = breaks[2]`). -/
theorem indexFromValue_locates_witness :
    ∃ i, indexFromValue exH012 1 = .ok i ∧ i < exH012.bins ∧
      exH012.breaks.getD i 0 ≤ 1 ∧
      (1 < exH012.breaks.getD (i + 1) 0 ∨ i = exH012.bins - 1) :=
  indexFromValue_locates exH012 1 (by decide) (by decide)
    (by norm_num [exH012, List.chain'_cons]) (by norm_num [exH012])
    (by norm_num [exH012])

/-! ## C6: when IndexFromValue throws -/

/-- C6 (counterexample): a value strictly below the first break but within
one machine epsilon of it — which the claim says is accepted into the
first bin — is rejected: the lower boundary check `value >= breaks[0]`
carries no tolerance. -/
theorem indexFromValue_rejects_just_below_front :
    isequalthan 1 (-(eps / 2)) (exH01.breaks.getD 0 0) ∧
    indexFromValue exH01 (-(eps / 2)) = .err .outOfRange := by
  constructor
  · norm_num [isequalthan, eps, exH01, abs_le]
  · norm_num [indexFromValue, exH01, isequalthan, eps]

/-- C6 (amended): `IndexFromValue` fails with the out-of-range error iff
`value < breaks.front()` (exactly — no tolerance at the lower boundary) or
`value ≥ breaks.back()` with `value` beyond one machine epsilon of
`breaks.back()`; the epsilon tolerance applies only at the upper boundary. -/
theorem indexFromValue_err_iff (h : Histo) (v : ℚ)
    (hlen : h.breaks.length = h.bins + 1) :
    indexFromValue h v = .err .outOfRange ↔
      (v < h.breaks.getD 0 0 ∨
        (h.breaks.getD h.bins 0 ≤ v ∧ ¬ isequalthan 1 v (h.breaks.getD h.bins 0))) := by
  have h0len : 0 < h.breaks.length := by omega
  have hbl : h.bins < h.breaks.length := by omega
  simp only [indexFromValue, List.getElem?_eq_getElem h0len,
    List.getElem?_eq_getElem hbl]
  rw [← List.getD_eq_getElem h.breaks 0 h0len, ← List.getD_eq_getElem h.breaks 0 hbl]
  by_cases hge : v ≥ h.breaks.getD 0 0
  · rw [if_pos hge]
    by_cases hacc : v < h.breaks.getD h.bins 0 ∨ isequalthan 1 v (h.breaks.getD h.bins 0)
    · rw [if_pos hacc]
      unfold ifvLoop
      obtain ⟨i, hres⟩ := ifvLoopF_ok h.breaks v (h.bins - 0) 0 h.bins hbl
      rw [hres]
      constructor
      · intro hcon
        exact absurd hcon (by simp)
      · intro hcon
        rcases hcon with hcon | ⟨hge', hne⟩
        · exact absurd hcon (not_lt.mpr hge)
        · rcases hacc with hacc | hacc
          · exact absurd hacc (not_lt.mpr hge')
          · exact absurd hacc hne
    · rw [if_neg hacc]
      push_neg at hacc
      simp only [true_iff]
      exact Or.inr ⟨hacc.1, hacc.2⟩
  · rw [if_neg hge]
    simp only [true_iff]
    exact Or.inl (lt_of_not_ge hge)

/-- C6 (witness): the amended characterization applied to `exH01` at
value `-1` (which indeed satisfies the right-hand side's first disjunct). -/
theorem indexFromValue_err_iff_witness :
    indexFromValue exH01 (-1) = .err .outOfRange ↔
      (-1 < exH01.breaks.getD 0 0 ∨
        (exH01.breaks.getD exH01.bins 0 ≤ -1 ∧
          ¬ isequalthan 1 (-1) (exH01.breaks.getD exH01.bins 0))) :=
  indexFromValue_err_iff exH01 (-1) (by decide)

/-! ## Sum helper lemmas -/

theorem innerProduct_range_map (f : ℕ → ℚ) :
    ∀ (l : List ℕ), innerProduct ((List.range l.length).map f) l
      = ∑ i in Finset.range l.length, f i * (l.getD i 0 : ℚ) := by
  intro l
  induction l generalizing f with
  | nil => simp [innerProduct]
  | cons x xs ih =>
    have hr : List.range (xs.length + 1) = 0 :: (List.range xs.length).map Nat.succ :=
      List.range_succ_eq_map xs.length
    simp only [innerProduct, List.length_cons, hr, List.map_cons, List.map_map,
      List.zipWith_cons_cons, List.sum_cons] at ih ⊢
    rw [Finset.sum_range_succ']
    simp only [List.getD_cons_succ, List.getD_cons_zero]
    rw [← ih (fun i => f (i + 1))]
    have hcomp : (List.range xs.length).map (f ∘ Nat.succ)
        = (List.range xs.length).map (fun i => f (i + 1)) := by
      simp [Function.comp]
    rw [hcomp]
    ring

theorem sum_getD_cast (l : List ℕ) :
    ∑ i in Finset.range l.length, (l.getD i 0 : ℚ) = (l.sum : ℚ) := by
  induction l with
  | nil => simp
  | cons x xs ih =>
    simp only [List.length_cons, List.sum_cons]
    rw [Finset.sum_range_succ']
    simp only [List.getD_cons_succ, List.getD_cons_zero, ih]
    push_cast
    ring

/-! ## C9: Mean's double normalization -/

/-- C9: `Mean` is the inner product of the bin centers
`(breaks[i] + breaks[i+1]) / 2` with the counts, divided by the number of
bins (not by the total count). -/
theorem mean_eq_weighted_centers (h : Histo)
    (hc : h.counts.length = h.bins) (hb : h.breaks.length = h.bins + 1)
    (_hbins : 1 ≤ h.bins) :
    mean h = .ok ((∑ i in Finset.range h.bins,
        ((h.breaks.getD i 0 + h.breaks.getD (i + 1) 0) / 2) * (h.counts.getD i 0 : ℚ))
      / (h.bins : ℚ)) := by
  unfold mean computeBinCenters
  rw [if_pos (by omega)]
  simp only []
  rw [innerProduct_range_map
    (fun i => h.breaks.getD i 0 + (h.breaks.getD (i + 1) 0 - h.breaks.getD i 0) / 2)]
  rw [hc]
  congr 1
  congr 1
  refine Finset.sum_congr rfl fun i _ => ?_
  ring

/-- C9 (witness): the mean formula on `exH012` (breaks `[0,1,2]`,
counts `[1,3]`). -/
theorem mean_eq_weighted_centers_witness :
    mean exH012 = .ok ((∑ i in Finset.range exH012.bins,
        ((exH012.breaks.getD i 0 + exH012.breaks.getD (i + 1) 0) / 2)
          * (exH012.counts.getD i 0 : ℚ)) / (exH012.bins : ℚ)) :=
  mean_eq_weighted_centers exH012 (by decide) (by decide) (by decide)

/-! ## Area-sum helper lemmas -/

theorem foldl_add_range (f : ℕ → ℚ) (n : ℕ) :
    (List.range n).foldl (fun acc i => acc + f i) 0 = ∑ i in Finset.range n, f i := by
  induction n with
  | zero => simp
  | succ n ih =>
    rw [List.range_succ, List.foldl_append, ih, Finset.sum_range_succ]
    simp

theorem sum_map_normCount (h : Histo) (l : List ℕ) :
    (l.map (normCount h)).sum = (l.sum : ℚ) / areaSum h := by
  induction l with
  | nil => simp
  | cons x xs ih =>
    simp only [List.map_cons, List.sum_cons, List.sum_cons, ih, normCount]
    push_cast
    rw [add_div]

theorem areaSum_uniform (h : Histo) (w : ℚ) (hc : h.counts.length = h.bins)
    (hw : 0 < w)
    (huni : ∀ i < h.bins, h.breaks.getD (i + 1) 0 - h.breaks.getD i 0 = w) :
    areaSum h = w * (h.counts.sum : ℚ) := by
  rw [areaSum, foldl_add_range]
  have : ∀ i ∈ Finset.range h.bins,
      (h.counts.getD i 0 : ℚ) * |h.breaks.getD (i + 1) 0 - h.breaks.getD i 0|
        = (h.counts.getD i 0 : ℚ) * w := by
    intro i hi
    rw [huni i (Finset.mem_range.mp hi), abs_of_pos hw]
  rw [Finset.sum_congr rfl this, ← Finset.sum_mul, ← hc, sum_getD_cast]
  ring

/-! ## C4: NormalizeByArea divides the raw count by the total area -/

/-- C4 (counterexample): on a single bin `[0, 2]` with count 1, the code
produces the count `1 / 2` (the raw count divided by the total area
`1 * 2`), not the claimed `count * binWidth / Σ = 1`; and although all bin
widths are equal (to 2), the output counts sum to `1/2`, not 1. -/
theorem normalizeByArea_formula_mismatch :
    normalizeByArea exH02 = .ok { range := (0, 0), breaks := [0, 2], bins := 1,
                                  counts := [1/2], name := "" } ∧
    specNormalizeCounts exH02 = [1] ∧
    (∀ i < exH02.bins, exH02.breaks.getD (i + 1) 0 - exH02.breaks.getD i 0 = 2) ∧
    ((1 : ℚ)/2 ≠ 1) := by
  refine ⟨?_, ?_, ?_, by norm_num⟩
  · rw [normalizeByArea, if_pos (by decide)]
    norm_num [exH02, normCount, areaSum, HistoF.mk.injEq, List.range_succ,
      List.range_zero, List.foldl_cons, List.foldl_nil]
  · norm_num [specNormalizeCounts, exH02, areaSum, List.range_succ,
      List.range_zero, List.foldl_cons, List.foldl_nil]
  · intro i hi
    have h1 : i < 1 := hi
    interval_cases i
    norm_num [exH02]

/-- C4 (amended): `NormalizeByArea` preserves breaks and bins, and replaces
each count by `count[i] / Σ_j(count[j] * binWidth[j])` (the raw count over
the total area, with no `binWidth[i]` factor in the numerator);
consequently, when all bin widths equal `w > 0` and the total count is
positive, the output counts sum to `1 / w` — equal to 1 exactly when
`w = 1`. -/
theorem normalizeByArea_divides_by_total_area (h : Histo) (w : ℚ)
    (hc : h.counts.length = h.bins) (hb : h.bins + 1 ≤ h.breaks.length)
    (hw : 0 < w)
    (huni : ∀ i < h.bins, h.breaks.getD (i + 1) 0 - h.breaks.getD i 0 = w)
    (hpos : 0 < h.counts.sum) :
    normalizeByArea h = .ok { range := (0, 0), breaks := h.breaks, bins := h.bins,
                              counts := h.counts.map (normCount h), name := "" } ∧
    (h.counts.map (normCount h)).sum = 1 / w := by
  have hS : (0 : ℚ) < (h.counts.sum : ℚ) := by exact_mod_cast hpos
  constructor
  · rw [normalizeByArea, if_pos ⟨hc, hb⟩]
  · rw [sum_map_normCount, areaSum_uniform h w hc hw huni]
    have hwS : (w * (h.counts.sum : ℚ)) ≠ 0 := by positivity
    rw [div_eq_div_iff hwS hw.ne']
    ring

/-- C4 (witness): the amended statement on `exH012` (breaks `[0,1,2]`,
counts `[1,3]`, uniform width 1). -/
theorem normalizeByArea_divides_by_total_area_witness :
    normalizeByArea exH012 = .ok { range := (0, 0), breaks := exH012.breaks,
                                   bins := exH012.bins,
                                   counts := exH012.counts.map (normCount exH012),
                                   name := "" } ∧
    (exH012.counts.map (normCount exH012)).sum = 1 / 1 :=
  normalizeByArea_divides_by_total_area exH012 1 (by decide) (by decide)
    (by norm_num)
    (by
      intro i hi
      have h2 : i < 2 := hi
      interval_cases i <;> norm_num [exH012])
    (by decide)

/-! ## Length bookkeeping lemmas -/

theorem shrinkOrExpandGo_length (d : ℚ) :
    ∀ (k : ℕ) (bs : List ℚ), (shrinkOrExpandGo d k bs).length = bs.length := by
  intro k bs
  induction bs generalizing k with
  | nil => rfl
  | cons v vs ih => simp [shrinkOrExpandGo, ih]

theorem shrinkOrExpandBreaks_length (bs : List ℚ) (d : ℚ) :
    (shrinkOrExpandBreaks bs d).length = bs.length :=
  shrinkOrExpandGo_length d 0 bs

theorem fillCounts_preserves : ∀ (data : List ℚ) (h : Histo),
    (fillCounts h data).1.breaks = h.breaks ∧ (fillCounts h data).1.bins = h.bins ∧
    (fillCounts h data).1.counts.length = h.counts.length := by
  intro data
  induction data with
  | nil => exact fun h => ⟨rfl, rfl, rfl⟩
  | cons v rest ih =>
    intro h
    simp only [fillCounts]
    split
    · split
      · exact ⟨(ih _).1, (ih _).2.1, by rw [(ih _).2.2]; simp⟩
      · exact ⟨rfl, rfl, rfl⟩
    · exact ⟨rfl, rfl, rfl⟩
    · exact ⟨rfl, rfl, rfl⟩
    · exact ⟨rfl, rfl, rfl⟩

theorem checkEquidistant_length {bs : List ℚ} {b : Bool}
    (h : checkBreaksAreEquidistant bs = some b) : 2 ≤ bs.length := by
  match bs with
  | [] => simp [checkBreaksAreEquidistant] at h
  | [x] => simp [checkBreaksAreEquidistant] at h
  | x :: y :: rest => simp only [List.length_cons]; omega

theorem checkMonotonic_nonempty {bs : List ℚ} {b : Bool}
    (h : checkIfMonotonicallyIncreasing bs = some b) : 1 ≤ bs.length := by
  match bs with
  | [] => simp [checkIfMonotonicallyIncreasing] at h
  | x :: rest => simp only [List.length_cons]; omega

theorem appendLoop_ok_length (r1 r2 w : ℚ) :
    ∀ (fuel nb : ℕ) (bs : List ℚ) (d : ℚ) (m : ℕ) (bs' : List ℚ) (d' : ℚ),
      appendLoop r1 r2 w fuel nb bs d = .ok (m, bs', d') → bs.length ≤ bs'.length := by
  intro fuel
  induction fuel with
  | zero =>
    intro nb bs d m bs' d' hres
    simp only [appendLoop] at hres
    split at hres
    · simp at hres
    · simp only [HRes.ok.injEq, Prod.mk.injEq] at hres
      rw [← hres.2.1]
  | succ f ih =>
    intro nb bs d m bs' d' hres
    simp only [appendLoop] at hres
    split at hres
    · split at hres
      · simp at hres
      · have := ih _ _ _ _ _ _ hres
        simp only [List.length_append, List.length_cons, List.length_nil] at this
        omega
    · simp only [HRes.ok.injEq, Prod.mk.injEq] at hres
      rw [← hres.2.1]

theorem balanceAfterLoop_ok_length {nb : ℕ} {bs bs' : List ℚ} {diff : ℚ} {c : Bool}
    (h : balanceAfterLoop nb bs diff = .ok (bs', c)) : bs'.length = bs.length := by
  unfold balanceAfterLoop at h
  split at h
  · simp only [HRes.ok.injEq, Prod.mk.injEq] at h
    rw [← h.1]
  · simp only [HRes.ok.injEq, Prod.mk.injEq] at h
    rw [← h.1, shrinkOrExpandBreaks_length]

theorem balanceLoopStage_ok_length {fuel : ℕ} {r1 r2 w : ℚ} {nb : ℕ}
    {bs bs' : List ℚ} {c : Bool}
    (h : balanceLoopStage fuel r1 r2 w nb bs = .ok (bs', c)) : bs.length ≤ bs'.length := by
  unfold balanceLoopStage at h
  split at h
  · simp at h
  · split at h
    · simp only [HRes.ok.injEq, Prod.mk.injEq] at h
      rw [h.1]
    · split at h
      · rename_i nbins3 bs3 diff3 happ
        have h1 := appendLoop_ok_length r1 r2 w fuel nb bs _ nbins3 bs3 diff3 happ
        have h2 := balanceAfterLoop_ok_length h
        omega
      · simp at h
      · simp at h
      · simp at h

theorem balancePopStage_ok_length {fuel : ℕ} {r1 r2 w : ℚ} {nb : ℕ}
    {bs bs' : List ℚ} {du : ℚ} {c : Bool}
    (hnb : bs.length = nb + 1) (h2 : 2 ≤ bs.length)
    (h : balancePopStage fuel r1 r2 w nb bs du = .ok (bs', c)) : 2 ≤ bs'.length := by
  unfold balancePopStage at h
  split at h
  · simp at h
  · split at h
    · split at h
      · simp at h
      · have hlen := balanceLoopStage_ok_length h
        rw [shrinkOrExpandBreaks_length, List.length_dropLast] at hlen
        omega
    · have := balanceLoopStage_ok_length h
      omega

theorem balanceShiftStage_ok_length {fuel : ℕ} {r1 r2 w : ℚ} {nb : ℕ}
    {bs bs' : List ℚ} {c : Bool}
    (hnb : bs.length = nb + 1) (h2 : 2 ≤ bs.length)
    (h : balanceShiftStage fuel r1 r2 w nb bs = .ok (bs', c)) : 2 ≤ bs'.length := by
  unfold balanceShiftStage at h
  split at h
  · simp at h
  · split at h
    · simp only [HRes.ok.injEq, Prod.mk.injEq] at h
      obtain ⟨hbs, -⟩ := h
      rw [← hbs]
      exact h2
    · exact balancePopStage_ok_length hnb h2 h

theorem balance_ok_length {fuel : ℕ} {bs : List ℚ} {rg : ℚ × ℚ}
    {bs' : List ℚ} {c : Bool}
    (h : balanceBreaksWithRange fuel bs rg = .ok (bs', c)) : 2 ≤ bs'.length := by
  unfold balanceBreaksWithRange at h
  split at h
  · simp at h
  · simp at h
  · rename_i hch
    have hlen := checkEquidistant_length hch
    split at h
    · split at h
      · simp only [HRes.ok.injEq, Prod.mk.injEq] at h
        obtain ⟨hbs, -⟩ := h
        rw [← hbs]
        exact hlen
      · exact balanceShiftStage_ok_length
          (by
            split
            · omega
            · simp only [shiftBreaks, List.length_map]
              omega)
          (by
            split
            · omega
            · simp only [shiftBreaks, List.length_map]
              omega)
          h
    · simp at h

theorem scottMethodWith_ok {width : ℚ} {fuel : ℕ} {rg : ℚ × ℚ}
    {bs : List ℚ} {bins : ℕ}
    (h : scottMethodWith width fuel rg = .ok (bs, bins)) :
    bins + 1 = bs.length := by
  unfold scottMethodWith at h
  split at h
  · simp at h
  · split at h
    · simp at h
    · split at h
      · rename_i bs2 c hbal
        have hl := balance_ok_length hbal
        simp only [HRes.ok.injEq, Prod.mk.injEq] at h
        obtain ⟨hbs, hbins⟩ := h
        subst hbs
        omega
      · simp at h
      · simp at h
      · simp at h

theorem histoInit_ok {rg : ℚ × ℚ} {bs : List ℚ} {bins : ℕ} {data : List ℚ} {h1 : Histo}
    (h : histoInit rg bs bins data = .ok h1) :
    h1.breaks = bs ∧ h1.bins = bins ∧ h1.counts.length = bins := by
  unfold histoInit at h
  split at h
  · rename_i hh u hfc
    simp only [HRes.ok.injEq] at h
    subst h
    have hpr := fillCounts_preserves data
      { range := rg, breaks := bs, bins := bins, counts := List.replicate bins 0, name := "" }
    rw [hfc] at hpr
    exact ⟨hpr.1, hpr.2.1, by rw [hpr.2.2]; simp⟩
  · simp at h
  · simp at h
  · simp at h

theorem histoFromBreaks_inv (data bks : List ℚ) (h : Histo)
    (hres : histoFromBreaks data bks = .ok h) : lengthInv h := by
  unfold histoFromBreaks at hres
  split at hres
  · simp at hres
  · simp at hres
  · rename_i hmono
    have hne := checkMonotonic_nonempty hmono
    obtain ⟨hb, hbi, hcl⟩ := histoInit_ok hres
    exact ⟨by rw [hb, hbi]; omega, by rw [hcl, hbi]⟩

theorem histoFromDataRange_inv (width : ℚ) (fuel : ℕ) (data : List ℚ) (rg : ℚ × ℚ)
    (h : Histo) (hres : histoFromDataRange width fuel data rg = .ok h) : lengthInv h := by
  unfold histoFromDataRange at hres
  split at hres
  · rename_i bs bins hsm
    have hlen := scottMethodWith_ok hsm
    obtain ⟨hb, hbi, hcl⟩ := histoInit_ok hres
    exact ⟨by rw [hb, hbi]; omega, by rw [hcl, hbi]⟩
  · simp at hres
  · simp at hres
  · simp at hres

/-! ## C8: the length-consistency invariant -/

/-- C8: `bins == breaks.length - 1` and `counts.length == bins` hold for
every histogram produced by the three constructors, and are preserved by
`ResetCounts`, `FillCounts` (even a failed one), successful
`Increase`/`Decrease`/`SetCount`, and `NormalizeByArea`. -/
theorem length_invariant_all_ops :
    (∀ data bks h, histoFromBreaks data bks = .ok h → lengthInv h) ∧
    (∀ width fuel data rg h, histoFromDataRange width fuel data rg = .ok h → lengthInv h) ∧
    (∀ width fuel data h, histoFromData width fuel data = .ok h → lengthInv h) ∧
    (∀ h, lengthInv h → lengthInv (resetCounts h)) ∧
    (∀ h data, lengthInv h → lengthInv (fillCounts h data).1) ∧
    (∀ h i h', lengthInv h → increase h i = .ok h' → lengthInv h') ∧
    (∀ h i h', lengthInv h → decrease h i = .ok h' → lengthInv h') ∧
    (∀ h i v h', lengthInv h → setCount h i v = .ok h' → lengthInv h') ∧
    (∀ h nh, lengthInv h → normalizeByArea h = .ok nh → lengthInvF nh) := by
  refine ⟨histoFromBreaks_inv, histoFromDataRange_inv, ?_, ?_, ?_, ?_, ?_, ?_, ?_⟩
  · intro width fuel data h hres
    unfold histoFromData at hres
    cases data with
    | nil => simp at hres
    | cons d ds => exact histoFromDataRange_inv width fuel (d :: ds) _ h hres
  · intro h hi
    exact ⟨hi.1, by simp [resetCounts]⟩
  · intro h data hi
    obtain ⟨hb, hbi, hcl⟩ := fillCounts_preserves data h
    exact ⟨by rw [hb, hbi]; exact hi.1, by rw [hcl, hbi]; exact hi.2⟩
  · intro h i h' hi hres
    unfold increase at hres
    split at hres
    · simp at hres
    · split at hres
      · simp at hres
      · simp only [HRes.ok.injEq] at hres
        subst hres
        exact ⟨hi.1, by simp [hi.2]⟩
  · intro h i h' hi hres
    unfold decrease at hres
    split at hres
    · simp at hres
    · split at hres
      · simp at hres
      · simp only [HRes.ok.injEq] at hres
        subst hres
        exact ⟨hi.1, by simp [hi.2]⟩
  · intro h i v h' hi hres
    unfold setCount at hres
    split at hres
    · simp at hres
    · split at hres
      · simp only [HRes.ok.injEq] at hres
        subst hres
        exact ⟨hi.1, by simp [hi.2]⟩
      · simp at hres
  · intro h nh hi hres
    rw [normalizeByArea] at hres
    split at hres
    · simp only [HRes.ok.injEq] at hres
      subst hres
      exact ⟨hi.1, by simp [hi.2]⟩
    · simp at hres

/-- C8 (witness): the invariant on the concrete result of the
breaks-supplied constructor with data `[1/2]` and breaks `[0, 1]`. -/
theorem length_invariant_all_ops_witness :
    lengthInv { range := (0, 1), breaks := [0, 1], bins := 1, counts := [1], name := "" } :=
  length_invariant_all_ops.1 [1/2] [0, 1] _
    (by norm_num [histoFromBreaks, checkIfMonotonicallyIncreasing,
      strictlyIncreasingFrom, histoInit, fillCounts, indexFromValue, ifvLoop,
      ifvLoopF, isequalthan, eps, ulongMod, List.replicate])

/-! ## Termination analysis of the balancing append loop -/

theorem appendLoop_zero_width_stuck : ∀ (fuel nb : ℕ) (bs : List ℚ),
    bs.length = nb + 1 → appendLoop 0 1 0 fuel nb bs (-1) = .fuelOut := by
  intro fuel
  induction fuel with
  | zero =>
    intro nb bs hlen
    simp only [appendLoop]
    rw [if_pos (by norm_num)]
  | succ f ih =>
    intro nb bs hlen
    simp only [appendLoop]
    rw [if_pos (by norm_num)]
    have hget : (bs ++ [(0 : ℚ) + ((nb + 1 : ℕ) : ℚ) * 0])[nb + 1]?
        = some ((0 : ℚ) + ((nb + 1 : ℕ) : ℚ) * 0) := by
      rw [List.getElem?_append_right (by omega)]
      simp [hlen]
    simp only [hget]
    rw [show (0 : ℚ) + ((nb + 1 : ℕ) : ℚ) * 0 - 1 = -1 by ring]
    exact ih (nb + 1) _ (by simp [hlen])

/-- C1 (counterexample): the breaks `[0, 0]` are equidistant within
tolerance (all gaps are 0), yet against range `(0, 1)` the appending loop
never terminates: every appended edge is `0 + nbins * 0 = 0`, so
`diff_upper` stays `-1 < 0` forever — no amount of fuel reaches an exit. -/
theorem balance_nonterminating_on_zero_width : ¬ balanceTerminates [0, 0] (0, 1) := by
  rintro ⟨fuel, hne⟩
  apply hne
  have hch : checkBreaksAreEquidistant [0, 0] = some true := by
    simp only [checkBreaksAreEquidistant, pairwiseWithin, Bool.and_eq_true,
      decide_eq_true_eq]
    norm_num [isequalthan, eps]
  have hstuck := appendLoop_zero_width_stuck fuel 1 [0, 0] (by simp)
  unfold balanceBreaksWithRange balanceShiftStage balancePopStage balanceLoopStage
  simp only [hch]
  norm_num [isequalthan, eps]
  simp [hstuck]

theorem appendLoop_reaches (r1 r2 w : ℚ) :
    ∀ (k nb : ℕ) (bs : List ℚ), bs.length = nb + 1 →
      0 ≤ r1 + ((nb + k : ℕ) : ℚ) * w - r2 →
      appendLoop r1 r2 w k nb bs (r1 + (nb : ℚ) * w - r2) ≠ .fuelOut := by
  intro k
  induction k with
  | zero =>
    intro nb bs hlen hge
    simp only [appendLoop]
    rw [if_neg (by push_cast at hge ⊢; linarith)]
    simp
  | succ k ih =>
    intro nb bs hlen hge
    simp only [appendLoop]
    by_cases hd : r1 + (nb : ℚ) * w - r2 < 0
    · rw [if_pos hd]
      have hget : (bs ++ [r1 + ((nb + 1 : ℕ) : ℚ) * w])[nb + 1]?
          = some (r1 + ((nb + 1 : ℕ) : ℚ) * w) := by
        rw [List.getElem?_append_right (by omega)]
        simp [hlen]
      simp only [hget]
      rw [show r1 + ((nb + 1 : ℕ) : ℚ) * w - r2 = r1 + ((nb + 1 : ℕ) : ℚ) * w - r2 from rfl]
      exact ih (nb + 1) _ (by simp [hlen]) (by push_cast at hge ⊢; linarith)
    · rw [if_neg hd]
      simp

theorem balanceLoopStage_terminates (r1 r2 w : ℚ) (hw : 0 < w) (nb : ℕ) (bs : List ℚ)
    (hlen : bs.length = nb + 1) :
    ∃ fuel, balanceLoopStage fuel r1 r2 w nb bs ≠ .fuelOut := by
  have hnb : nb < bs.length := by omega
  have hget : bs[nb]? = some bs[nb] := List.getElem?_eq_getElem hnb
  by_cases hz : isequalthan 1 (bs[nb] - r2) 0
  · refine ⟨0, ?_⟩
    unfold balanceLoopStage
    simp only [hget]
    rw [if_pos hz]
    simp
  · have key : ∀ fuel, appendLoop r1 r2 w fuel nb bs (bs[nb] - r2) ≠ .fuelOut →
        balanceLoopStage fuel r1 r2 w nb bs ≠ .fuelOut := by
      intro fuel happ
      unfold balanceLoopStage
      simp only [hget]
      rw [if_neg hz]
      cases hres : appendLoop r1 r2 w fuel nb bs (bs[nb] - r2) with
      | ok t =>
        obtain ⟨m, bs3, d3⟩ := t
        simp only []
        unfold balanceAfterLoop
        split <;> simp
      | err e => simp
      | ub => simp
      | fuelOut => exact absurd hres happ
    by_cases hd : bs[nb] - r2 < 0
    · obtain ⟨k, hk⟩ := exists_nat_gt ((r2 - r1 - ((nb + 1 : ℕ) : ℚ) * w) / w)
      refine ⟨k + 1, key (k + 1) ?_⟩
      simp only [appendLoop]
      rw [if_pos hd]
      have hget2 : (bs ++ [r1 + ((nb + 1 : ℕ) : ℚ) * w])[nb + 1]?
          = some (r1 + ((nb + 1 : ℕ) : ℚ) * w) := by
        rw [List.getElem?_append_right (by omega)]
        simp [hlen]
      simp only [hget2]
      have h0 : 0 ≤ r1 + (((nb + 1) + k : ℕ) : ℚ) * w - r2 := by
        have := (div_lt_iff₀ hw).mp hk
        push_cast at this ⊢
        linarith
      exact appendLoop_reaches r1 r2 w k (nb + 1) _ (by simp [hlen]) h0
    · refine ⟨0, key 0 ?_⟩
      simp only [appendLoop]
      rw [if_neg hd]
      simp

theorem balancePopStage_terminates (r1 r2 w : ℚ) (hw : 0 < w) (nb : ℕ) (bs : List ℚ)
    (du : ℚ) (hlen : bs.length = nb + 1) :
    ∃ fuel, balancePopStage fuel r1 r2 w nb bs du ≠ .fuelOut := by
  have hget : bs[nb - 1]? = some bs[nb - 1] := List.getElem?_eq_getElem (by omega)
  by_cases hcond : bs[nb - 1] - r2 < 0 ∧ 0 < du ∧ |bs[nb - 1] - r2| < (4 / 5 : ℚ) * |du|
  · by_cases hz : nb - 1 = 0
    · refine ⟨0, ?_⟩
      unfold balancePopStage
      simp only [hget]
      rw [if_pos hcond, if_pos hz]
      simp
    · obtain ⟨fuel, hf⟩ := balanceLoopStage_terminates r1 r2 w hw (nb - 1)
        (shrinkOrExpandBreaks bs.dropLast (-((bs[nb - 1] - r2) / ((nb - 1 : ℕ) : ℚ))))
        (by rw [shrinkOrExpandBreaks_length, List.length_dropLast]; omega)
      refine ⟨fuel, ?_⟩
      unfold balancePopStage
      simp only [hget]
      rw [if_pos hcond, if_neg hz]
      exact hf
  · obtain ⟨fuel, hf⟩ := balanceLoopStage_terminates r1 r2 w hw nb bs hlen
    refine ⟨fuel, ?_⟩
    unfold balancePopStage
    simp only [hget]
    rw [if_neg hcond]
    exact hf

theorem balanceShiftStage_terminates (r1 r2 w : ℚ) (hw : 0 < w) (nb : ℕ) (bs : List ℚ)
    (hlen : bs.length = nb + 1) :
    ∃ fuel, balanceShiftStage fuel r1 r2 w nb bs ≠ .fuelOut := by
  have hget : bs[nb]? = some bs[nb] := List.getElem?_eq_getElem (by omega)
  by_cases hz : isequalthan 1 (bs[nb] - r2) 0
  · refine ⟨0, ?_⟩
    unfold balanceShiftStage
    simp only [hget]
    rw [if_pos hz]
    simp
  · obtain ⟨fuel, hf⟩ := balancePopStage_terminates r1 r2 w hw nb bs (bs[nb] - r2) hlen
    refine ⟨fuel, ?_⟩
    unfold balanceShiftStage
    simp only [hget]
    rw [if_neg hz]
    exact hf

/-! ## C1: termination of BalanceBreaksWithRange -/

/-- C1 (amended): `BalanceBreaksWithRange` terminates on every input whose
first two breaks are strictly increasing (`breaks[1] - breaks[0] > 0`, the
width used by the appending loop), for any range: some finite fuel makes
the appending loop reach `diff_upper ≥ 0`, since each appended edge raises
`diff_upper` by the positive width.  The equidistance precondition alone
does not ensure this (see `balance_nonterminating_on_zero_width`): a
zero-width equidistant sequence loops forever. -/
theorem balance_terminates_of_pos_width (bs : List ℚ) (rg : ℚ × ℚ) (b0 b1 : ℚ)
    (h0 : bs[0]? = some b0) (h1 : bs[1]? = some b1) (hw : b0 < b1) :
    balanceTerminates bs rg := by
  cases hch : checkBreaksAreEquidistant bs with
  | none =>
    exact ⟨0, by unfold balanceBreaksWithRange; simp [hch]⟩
  | some b =>
    cases b with
    | false => exact ⟨0, by unfold balanceBreaksWithRange; simp [hch]⟩
    | true =>
      have hlen := checkEquidistant_length hch
      have hg0 : bs[0]? = some bs[0] := List.getElem?_eq_getElem (by omega)
      have hg1 : bs[1]? = some bs[1] := List.getElem?_eq_getElem (by omega)
      have hgn : bs[bs.length - 1]? = some bs[bs.length - 1] :=
        List.getElem?_eq_getElem (by omega)
      have hb0 : b0 = bs[0] := by rw [h0] at hg0; exact Option.some.inj hg0
      have hb1 : b1 = bs[1] := by rw [h1] at hg1; exact Option.some.inj hg1
      have hwpos : (0 : ℚ) < bs[1] - bs[0] := by
        rw [← hb0, ← hb1]
        linarith
      by_cases hz : isequalthan 1 (bs[0] - rg.1) 0 ∧
          isequalthan 1 (bs[bs.length - 1] - rg.2) 0
      · refine ⟨0, ?_⟩
        unfold balanceBreaksWithRange
        simp only [hch, hg0, hg1, hgn]
        rw [if_pos hz]
        simp
      · obtain ⟨fuel, hf⟩ := balanceShiftStage_terminates rg.1 rg.2 (bs[1] - bs[0])
          hwpos (bs.length - 1)
          (if isequalthan 1 (bs[0] - rg.1) 0 then bs else shiftBreaks bs (-(bs[0] - rg.1)))
          (by
            split
            · omega
            · simp only [shiftBreaks, List.length_map]
              omega)
        refine ⟨fuel, ?_⟩
        unfold balanceBreaksWithRange
        simp only [hch, hg0, hg1, hgn]
        rw [if_neg hz]
        exact hf

/-- C1 (witness): the amended statement on breaks `[0, 1]` (width 1) and
range `(0, 2)`. -/
theorem balance_terminates_of_pos_width_witness : balanceTerminates [0, 1] (0, 2) :=
  balance_terminates_of_pos_width [0, 1] (0, 2) 0 1 rfl rfl (by norm_num)

/-! ## Arithmetic-progression lemmas for the balancing round trip -/

theorem isequalthan_self (N : ℕ) (x : ℚ) : isequalthan N x x := by
  unfold isequalthan
  rw [sub_self, abs_zero]
  have heps : (0 : ℚ) ≤ eps := by norm_num [eps]
  positivity

theorem apList_length (a w : ℚ) : ∀ n, (apList a w n).length = n + 1 := by
  intro n
  induction n generalizing a with
  | zero => rfl
  | succ n ih => simp [apList, ih]

theorem apList_getElem? (a w : ℚ) : ∀ (n i : ℕ), i ≤ n →
    (apList a w n)[i]? = some (a + (i : ℚ) * w) := by
  intro n
  induction n generalizing a with
  | zero =>
    intro i hi
    have : i = 0 := by omega
    subst this
    simp [apList]
  | succ n ih =>
    intro i hi
    cases i with
    | zero => simp [apList]
    | succ j =>
      show (a :: apList (a + w) w n)[j + 1]? = _
      rw [List.getElem?_cons_succ, ih (a + w) j (by omega)]
      congr 1
      push_cast
      ring

theorem apList_append (a w : ℚ) : ∀ n,
    apList a w n ++ [a + ((n + 1 : ℕ) : ℚ) * w] = apList a w (n + 1) := by
  intro n
  induction n generalizing a with
  | zero =>
    show [a] ++ [a + ((1 : ℕ) : ℚ) * w] = [a, a + w]
    norm_num
  | succ n ih =>
    show (a :: apList (a + w) w n) ++ [a + ((n + 2 : ℕ) : ℚ) * w]
      = a :: apList (a + w) w (n + 1)
    rw [List.cons_append,
      show a + ((n + 2 : ℕ) : ℚ) * w = (a + w) + ((n + 1 : ℕ) : ℚ) * w by push_cast; ring,
      ih (a + w)]

theorem apList_dropLast (a w : ℚ) : ∀ n, (apList a w (n + 1)).dropLast = apList a w n := by
  intro n
  induction n generalizing a with
  | zero => rfl
  | succ n ih =>
    show (a :: (a + w) :: apList (a + w + w) w n).dropLast = a :: apList (a + w) w n
    rw [List.dropLast_cons₂]
    congr 1
    exact ih (a + w)

theorem shrinkGo_apList (w d : ℚ) : ∀ (n : ℕ) (a : ℚ) (k : ℕ),
    shrinkOrExpandGo d k (apList a w n) = apList (a + (k : ℚ) * d) (w + d) n := by
  intro n
  induction n generalizing w with
  | zero => intro a k; rfl
  | succ n ih =>
    intro a k
    show (a + (k : ℚ) * d) :: shrinkOrExpandGo d (k + 1) (apList (a + w) w n)
      = (a + (k : ℚ) * d) :: apList (a + (k : ℚ) * d + (w + d)) (w + d) n
    rw [ih w (a + w) (k + 1)]
    congr 2
    push_cast
    ring

theorem shrink_apList (a w d : ℚ) (n : ℕ) :
    shrinkOrExpandBreaks (apList a w n) d = apList a (w + d) n := by
  unfold shrinkOrExpandBreaks
  rw [shrinkGo_apList]
  norm_num

theorem pairwiseWithin_apList (w : ℚ) : ∀ (n : ℕ) (a : ℚ),
    pairwiseWithin w a (apList (a + w) w n) = true := by
  intro n
  induction n with
  | zero =>
    intro a
    show (decide (isequalthan 100 (a + w - a) w) && true) = true
    rw [show a + w - a = w by ring]
    simp [isequalthan_self]
  | succ n ih =>
    intro a
    show (decide (isequalthan 100 (a + w - a) w)
      && pairwiseWithin w (a + w) (apList (a + w + w) w n)) = true
    rw [show a + w - a = w by ring]
    simp only [Bool.and_eq_true, decide_eq_true_eq]
    exact ⟨isequalthan_self 100 w, ih (a + w)⟩

theorem checkEquidistant_apList (a w : ℚ) (n : ℕ) (hn : 1 ≤ n) :
    checkBreaksAreEquidistant (apList a w n) = some true := by
  obtain ⟨m, rfl⟩ : ∃ m, n = m + 1 := ⟨n - 1, by omega⟩
  cases m with
  | zero =>
    show checkBreaksAreEquidistant [a, a + w] = some true
    show some (pairwiseWithin (a + w - a) a [a + w]) = some true
    rw [show a + w - a = w by ring]
    rw [show ([a + w] : List ℚ) = apList (a + w) w 0 from rfl]
    rw [pairwiseWithin_apList]
  | succ m =>
    show checkBreaksAreEquidistant (a :: (a + w) :: apList (a + w + w) w m) = some true
    show some (pairwiseWithin (a + w - a) a ((a + w) :: apList (a + w + w) w m)) = some true
    rw [show a + w - a = w by ring]
    rw [show ((a + w) :: apList (a + w + w) w m) = apList (a + w) w (m + 1) from rfl]
    rw [pairwiseWithin_apList]

theorem appendLoop_apList (r1 r2 w : ℚ) :
    ∀ (fuel nb : ℕ), ∃ m, nb ≤ m ∧
      (appendLoop r1 r2 w fuel nb (apList r1 w nb) (r1 + (nb : ℚ) * w - r2) = .fuelOut ∨
       (appendLoop r1 r2 w fuel nb (apList r1 w nb) (r1 + (nb : ℚ) * w - r2)
          = .ok (m, apList r1 w m, r1 + (m : ℚ) * w - r2) ∧
        0 ≤ r1 + (m : ℚ) * w - r2)) := by
  intro fuel
  induction fuel with
  | zero =>
    intro nb
    by_cases hd : r1 + (nb : ℚ) * w - r2 < 0
    · exact ⟨nb, le_rfl, Or.inl (by simp only [appendLoop]; rw [if_pos hd])⟩
    · exact ⟨nb, le_rfl, Or.inr ⟨by simp only [appendLoop]; rw [if_neg hd],
        le_of_not_lt hd⟩⟩
  | succ f ih =>
    intro nb
    by_cases hd : r1 + (nb : ℚ) * w - r2 < 0
    · obtain ⟨m, hm, hres⟩ := ih (nb + 1)
      refine ⟨m, by omega, ?_⟩
      have hstep : appendLoop r1 r2 w (f + 1) nb (apList r1 w nb) (r1 + (nb : ℚ) * w - r2)
          = appendLoop r1 r2 w f (nb + 1) (apList r1 w (nb + 1))
              (r1 + ((nb + 1 : ℕ) : ℚ) * w - r2) := by
        simp only [appendLoop]
        rw [if_pos hd]
        have hget : (apList r1 w nb ++ [r1 + ((nb + 1 : ℕ) : ℚ) * w])[nb + 1]?
            = some (r1 + ((nb + 1 : ℕ) : ℚ) * w) := by
          rw [List.getElem?_append_right (by rw [apList_length])]
          simp [apList_length]
        simp only [hget]
        rw [apList_append]
      rw [hstep]
      exact hres
    · exact ⟨nb, le_rfl, Or.inr ⟨by simp only [appendLoop]; rw [if_neg hd],
        le_of_not_lt hd⟩⟩

theorem balance_apList_noop (rg : ℚ × ℚ) (w' : ℚ) (m : ℕ) (hm : 1 ≤ m)
    (hclose : isequalthan 1 (rg.1 + (m : ℚ) * w' - rg.2) 0) (fuel : ℕ) :
    balanceBreaksWithRange fuel (apList rg.1 w' m) rg = .ok (apList rg.1 w' m, false) := by
  have hch := checkEquidistant_apList rg.1 w' m hm
  have hg0 : (apList rg.1 w' m)[0]? = some rg.1 := by
    rw [apList_getElem? rg.1 w' m 0 (by omega)]
    norm_num
  have hg1 : (apList rg.1 w' m)[1]? = some (rg.1 + w') := by
    rw [apList_getElem? rg.1 w' m 1 hm]
    norm_num
  have hgm : (apList rg.1 w' m)[m]? = some (rg.1 + (m : ℚ) * w') :=
    apList_getElem? rg.1 w' m m le_rfl
  unfold balanceBreaksWithRange
  simp only [hch, apList_length, Nat.add_sub_cancel, hg0, hg1, hgm]
  rw [if_pos ⟨by rw [sub_self]; exact isequalthan_self 1 0, hclose⟩]

theorem balance_apList_ok {fuel : ℕ} {rg : ℚ × ℚ} {w : ℚ} {n : ℕ} {bs' : List ℚ}
    {c : Bool} (hn : 1 ≤ n)
    (h : balanceBreaksWithRange fuel (apList rg.1 w n) rg = .ok (bs', c)) :
    ∃ w' m, 1 ≤ m ∧ bs' = apList rg.1 w' m ∧
      isequalthan 1 (rg.1 + (m : ℚ) * w' - rg.2) 0 := by
  obtain ⟨k, rfl⟩ : ∃ k, n = k + 1 := ⟨n - 1, by omega⟩
  have hch := checkEquidistant_apList rg.1 w (k + 1) (by omega)
  have hg0 : (apList rg.1 w (k + 1))[0]? = some rg.1 := by
    rw [apList_getElem? rg.1 w (k + 1) 0 (by omega)]
    norm_num
  have hg1 : (apList rg.1 w (k + 1))[1]? = some (rg.1 + w) := by
    rw [apList_getElem? rg.1 w (k + 1) 1 (by omega)]
    norm_num
  have hgn : (apList rg.1 w (k + 1))[k + 1]? = some (rg.1 + ((k + 1 : ℕ) : ℚ) * w) :=
    apList_getElem? rg.1 w (k + 1) (k + 1) le_rfl
  have hdl : isequalthan 1 (rg.1 - rg.1) 0 := by
    rw [sub_self]
    exact isequalthan_self 1 0
  unfold balanceBreaksWithRange at h
  simp only [hch, apList_length, Nat.add_sub_cancel, hg0, hg1, hgn] at h
  by_cases hdu : isequalthan 1 (rg.1 + ((k + 1 : ℕ) : ℚ) * w - rg.2) 0
  · rw [if_pos ⟨hdl, hdu⟩] at h
    simp only [HRes.ok.injEq, Prod.mk.injEq] at h
    exact ⟨w, k + 1, by omega, h.1.symm, hdu⟩
  · rw [if_neg (fun hand => hdu hand.2), if_pos hdl,
      show rg.1 + w - rg.1 = w by ring] at h
    unfold balanceShiftStage at h
    simp only [hgn] at h
    rw [if_neg hdu] at h
    unfold balancePopStage at h
    have hgnm : (apList rg.1 w (k + 1))[k]? = some (rg.1 + ((k : ℕ) : ℚ) * w) :=
      apList_getElem? rg.1 w (k + 1) k (by omega)
    simp only [Nat.add_sub_cancel, hgnm] at h
    split at h
    · -- pop branch taken
      split at h
      · simp at h
      · rename_i hpop hnz
        rw [apList_dropLast, shrink_apList] at h
        have hk0 : ((k : ℕ) : ℚ) ≠ 0 := Nat.cast_ne_zero.mpr hnz
        unfold balanceLoopStage at h
        have hgk : (apList rg.1 (w + -((rg.1 + ((k : ℕ) : ℚ) * w - rg.2) / ((k : ℕ) : ℚ))) k)[k]?
            = some (rg.1 + (k : ℚ) * (w + -((rg.1 + ((k : ℕ) : ℚ) * w - rg.2) / ((k : ℕ) : ℚ)))) :=
          apList_getElem? _ _ k k le_rfl
        simp only [hgk] at h
        have hkey : rg.1 + (k : ℚ) * (w + -((rg.1 + ((k : ℕ) : ℚ) * w - rg.2) / ((k : ℕ) : ℚ)))
            - rg.2 = 0 := by
          field_simp
          ring
        rw [if_pos (by rw [hkey]; exact isequalthan_self 1 0)] at h
        simp only [HRes.ok.injEq, Prod.mk.injEq] at h
        refine ⟨_, k, by omega, h.1.symm, ?_⟩
        rw [hkey]
        exact isequalthan_self 1 0
    · -- pop branch not taken
      unfold balanceLoopStage at h
      simp only [hgn] at h
      rw [if_neg hdu] at h
      push_cast at h
      obtain ⟨m, hm, hres | ⟨hres, hge⟩⟩ := appendLoop_apList rg.1 rg.2 w fuel (k + 1)
      · push_cast at hres
        simp [hres] at h
      · push_cast at hres
        simp only [hres] at h
        unfold balanceAfterLoop at h
        by_cases hz3 : isequalthan 1 (rg.1 + (m : ℚ) * w - rg.2) 0
        · rw [if_pos hz3] at h
          simp only [HRes.ok.injEq, Prod.mk.injEq] at h
          exact ⟨w, m, by omega, h.1.symm, hz3⟩
        · rw [if_neg hz3] at h
          rw [shrink_apList] at h
          have hm0 : ((m : ℕ) : ℚ) ≠ 0 := Nat.cast_ne_zero.mpr (by omega)
          have hkey : rg.1 + (m : ℚ) * (w + -((rg.1 + (m : ℚ) * w - rg.2) / ((m : ℕ) : ℚ)))
              - rg.2 = 0 := by
            field_simp
            ring
          simp only [HRes.ok.injEq, Prod.mk.injEq] at h
          refine ⟨_, m, by omega, h.1.symm, ?_⟩
          rw [hkey]
          exact isequalthan_self 1 0

/-! ## C7: idempotence of BalanceBreaksWithRange -/

/-- C7 (counterexample): `cexBreaks` is equidistant within the `100 * eps`
tolerance, but balancing it against range `(0, 10)` appends edges computed
from `range.first` with the first-gap width, producing `cexBreaks2` whose
junction gap deviates from the first gap by `300 * eps`.  The second
application therefore does not return `changed == false`: it throws the
non-equidistant precondition error. -/
theorem balance_not_idempotent_on_tolerant_input :
    checkBreaksAreEquidistant cexBreaks = some true ∧
    balanceBreaksWithRange 10 cexBreaks (0, 10) = .ok (cexBreaks2, true) ∧
    balanceBreaksWithRange 10 cexBreaks2 (0, 10) = .err .nonEquidistant := by
  refine ⟨?_, ?_, ?_⟩
  · norm_num [cexBreaks, checkBreaksAreEquidistant, pairwiseWithin, isequalthan,
      eps, abs_le]
  · norm_num [cexBreaks, cexBreaks2, balanceBreaksWithRange, checkBreaksAreEquidistant,
      pairwiseWithin, balanceShiftStage, balancePopStage, balanceLoopStage,
      balanceAfterLoop, appendLoop, shrinkOrExpandBreaks, shrinkOrExpandGo,
      shiftBreaks, isequalthan, eps, abs_le]
  · norm_num [cexBreaks2, balanceBreaksWithRange, checkBreaksAreEquidistant,
      pairwiseWithin, isequalthan, eps, abs_le]

/-- C7 (amended): for an exactly equidistant breaks sequence anchored at
the range's low end (`breaks[i] = range.low + i * width`, the shape
`ScottMethod` hands to the balancer), whenever `BalanceBreaksWithRange`
returns normally, its output is again such a sequence with its last edge
within tolerance of `range.upper`; a second application (any fuel) makes no
change and returns `changed == false`.  For breaks that are merely
equidistant within tolerance the round trip can fail
(`balance_not_idempotent_on_tolerant_input`). -/
theorem balance_idempotent_on_exact_input (rg : ℚ × ℚ) (w : ℚ) (n : ℕ) (hn : 1 ≤ n)
    (fuel fuel' : ℕ) (bs' : List ℚ) (c : Bool)
    (h : balanceBreaksWithRange fuel (apList rg.1 w n) rg = .ok (bs', c)) :
    balanceBreaksWithRange fuel' bs' rg = .ok (bs', false) := by
  obtain ⟨w', m, hm, rfl, hclose⟩ := balance_apList_ok hn h
  exact balance_apList_noop rg w' m hm hclose fuel'

/-- C7 (witness): breaks `[0, 1, 2]` against range `(0, 2)` balance to
themselves; re-balancing returns `changed == false`. -/
theorem balance_idempotent_on_exact_input_witness :
    balanceBreaksWithRange 5 (apList ((0 : ℚ), (2 : ℚ)).1 1 2) (0, 2)
      = .ok (apList ((0 : ℚ), (2 : ℚ)).1 1 2, false) :=
  balance_idempotent_on_exact_input (0, 2) 1 2 (by norm_num) 7 5 _ false
    (balance_apList_noop (0, 2) 1 2 (by norm_num)
      (by norm_num [isequalthan, eps]) 7)

end HistoSpec
